import Mathlib

/-!
Shallow embedding of the rxcppv3 reactive library core (src/rx.h and the
header variants under src/observables and src/rx_pipe_operator.h).

The embedding models:
* the observer termination machinery (rx.h 469-486 detail::report /
  detail::enforce / detail::end, and rx.h 609-661 observer<Next,Error,Complete>);
* the subscription (lifetime) stop-hook and state-destructor lists
  (rx.h 157-316, 377-394);
* the ints synchronous producer (rx.h 1802-1818) and the header variant
  (src/observables/rx_ints.h 5-21);
* the take adaptor (rx.h 1960-1982);
* the observe_at priority queue and the run_loop drain discipline
  (rx.h 2215-2439);
* the pipe-operator algebra fragments the claims mention
  (rx.h 2091-2139, src/rx_pipe_operator.h).

Exceptions are modelled by Option values: a user callback returns
(stoppedTheLifetime, threwThisException).  abort() is an Outcome.
All models are single threaded: the child-lifetime set, the mutexes, the
condition variables and the bind_defer rerouting of rx.h are elided, and
stop teardown runs inline (the default defer of subscription::shared).
-/

namespace Rx

/-- Events delivered to the user callbacks of one observer: each value is
one invocation of the user next, error or complete callback. -/
inductive Ev (V E : Type) where
  | nextEv (v : V)
  | errorEv (e : E)
  | completeEv
deriving DecidableEq, Repr

/-- Result of one call into the observer machinery: it returned normally,
an exception escaped to the caller, or std::abort was reached. -/
inductive Outcome (E : Type) where
  | normal
  | threw (e : E)
  | aborted
deriving DecidableEq, Repr

/-- Signals arriving at an observer from upstream. -/
inductive Sig (V E : Type) where
  | next (v : V)
  | error (e : E)
  | complete
deriving DecidableEq, Repr

/-- The user callbacks of observer<Next, Error, Complete> (rx.h 609).
A callback returns the pair (it stopped the observer lifetime while it ran,
the exception it threw, if any). -/
structure Cbs (V E : Type) where
  n : V → Bool × Option E
  e : E → Bool × Option E
  c : Bool × Option E

/-- Bool test for the aborted outcome. -/
def isAborted {E : Type} : Outcome E → Bool
  | Outcome.aborted => true
  | _ => false

/-- observer::next (rx.h 615-619): report(end(lifetime, e), enforce(lifetime, n), v).
enforce skips the user next when the lifetime is stopped; when the user next
throws, the catch handler runs end(lifetime, e): if the lifetime is still not
stopped it invokes the user error callback and then stops the lifetime, but
when the user error callback itself throws, lifetime.stop() is skipped and
the exception escapes to the caller of next. -/
def obsNext {V E : Type} (o : Cbs V E) (stopped : Bool) (v : V) :
    Bool × List (Ev V E) × Outcome E :=
  if stopped then (stopped, [], Outcome.normal)
  else
    let rn := o.n v
    match rn.2 with
    | none => (rn.1, [Ev.nextEv v], Outcome.normal)
    | some ex =>
      if rn.1 then (rn.1, [Ev.nextEv v], Outcome.normal)
      else
        let re := o.e ex
        match re.2 with
        | none => (true, [Ev.nextEv v, Ev.errorEv ex], Outcome.normal)
        | some ex2 => (re.1, [Ev.nextEv v, Ev.errorEv ex], Outcome.threw ex2)

/-- observer::error (rx.h 620-624): report(fail, end(lifetime, e), err).
When the lifetime is stopped this is a no-op; otherwise the user error
callback runs and the lifetime is stopped; if the user error callback
throws, fail invokes std::abort. -/
def obsError {V E : Type} (o : Cbs V E) (stopped : Bool) (err : E) :
    Bool × List (Ev V E) × Outcome E :=
  if stopped then (stopped, [], Outcome.normal)
  else
    let re := o.e err
    match re.2 with
    | none => (true, [Ev.errorEv err], Outcome.normal)
    | some _ => (re.1, [Ev.errorEv err], Outcome.aborted)

/-- observer::complete (rx.h 625-628): report(fail, end(lifetime, c)). -/
def obsComplete {V E : Type} (o : Cbs V E) (stopped : Bool) :
    Bool × List (Ev V E) × Outcome E :=
  if stopped then (stopped, [], Outcome.normal)
  else
    match o.c.2 with
    | none => (true, [Ev.completeEv], Outcome.normal)
    | some _ => (o.c.1, [Ev.completeEv], Outcome.aborted)

/-- One upstream signal dispatched to the corresponding observer member. -/
def obsStep {V E : Type} (o : Cbs V E) (stopped : Bool) :
    Sig V E → Bool × List (Ev V E) × Outcome E
  | Sig.next v => obsNext o stopped v
  | Sig.error e => obsError o stopped e
  | Sig.complete => obsComplete o stopped

/-- Feed a list of signals to one observer.  Returns the final stopped flag,
the concatenated user-callback events, and whether std::abort was reached
(after an abort the process is gone, so no further signal is processed;
an exception that escapes a member call can be caught by the caller, who may
keep using the observer, so the run continues). -/
def obsRun {V E : Type} (o : Cbs V E) : Bool → List (Sig V E) → Bool × List (Ev V E) × Bool
  | s, [] => (s, [], false)
  | s, sig :: rest =>
    let r := obsStep o s sig
    if isAborted r.2.2 then (r.1, r.2.1, true)
    else
      let r2 := obsRun o r.1 rest
      (r2.1, r.2.1 ++ r2.2.1, r2.2.2)

/-- Terminal events are invocations of the user error or complete callback. -/
def isTerminal {V E : Type} : Ev V E → Bool
  | Ev.errorEv _ => true
  | Ev.completeEv => true
  | _ => false

/-- Number of terminal user-callback invocations in a trace. -/
def termCount {V E : Type} (evs : List (Ev V E)) : Nat :=
  (evs.filter isTerminal).length

/-- An observer whose callbacks neither throw nor stop the lifetime. -/
def wellBehaved {V E : Type} (o : Cbs V E) : Prop :=
  (∀ v, o.n v = (false, none)) ∧ (∀ ex, o.e ex = (false, none)) ∧ o.c = (false, none)

/-- Observer machine state used by the producer models: the lifetime stopped
flag and the user events delivered so far. -/
def mNext {V E : Type} (o : Cbs V E) (st : Bool × List (Ev V E)) (v : V) :
    Bool × List (Ev V E) :=
  ((obsNext o st.1 v).1, st.2 ++ (obsNext o st.1 v).2.1)

/-- Observer complete applied to a machine state. -/
def mComplete {V E : Type} (o : Cbs V E) (st : Bool × List (Ev V E)) :
    Bool × List (Ev V E) :=
  ((obsComplete o st.1).1, st.2 ++ (obsComplete o st.1).2.1)

/-- The emission loop of ints (rx.h 1810-1813):
for(auto i = first; not r.lifetime.is_stopped(); ++i) r.next(i); break on
i == last.  The loop has no other exit, so it is given fuel; the Bool result
records whether the loop exited by itself (stopped check or break) before
the fuel ran out. -/
def intsLoop {E : Type} (o : Cbs Int E) (last : Int) :
    Nat → Int → Bool × List (Ev Int E) → (Bool × List (Ev Int E)) × Bool
  | 0, _, st => (st, false)
  | fuel + 1, i, st =>
    if st.1 then (st, true)
    else
      let st1 := mNext o st i
      if i = last then (st1, true)
      else intsLoop o last fuel (i + 1) st1

/-- The body of the starter made by ints (rx.h 1806-1816): run the loop from
first, then call r.complete(). -/
def intsRun {E : Type} (o : Cbs Int E) (first last : Int) (fuel : Nat) :
    (Bool × List (Ev Int E)) × Bool :=
  let r := intsLoop o last fuel first (false, [])
  if r.2 then (mComplete o r.1, true) else r

/-- The integers first, first + 1, ..., first + n - 1. -/
def rangeFrom (i : Int) : Nat → List Int
  | 0 => []
  | n + 1 => i :: rangeFrom (i + 1) n

/-- The integers first..last inclusive, for first ≤ last. -/
def intRange (first last : Int) : List Int :=
  rangeFrom first ((last - first).toNat + 1)

/-- Callbacks that stop the observer lifetime from inside the user next
callback exactly at value k (modelling a consumer that cancels mid-stream). -/
def stopAtCbs {E : Type} (k : Int) : Cbs Int E :=
  ⟨fun v => (decide (v = k), none), fun _ => (false, none), (false, none)⟩

/-- Callbacks on Int that never throw and never stop the lifetime. -/
def wbUnit : Cbs Int Unit :=
  ⟨fun _ => (false, none), fun _ => (false, none), (false, none)⟩

/-- Callbacks on Unit whose next and error callbacks both throw: the
degenerate observer that exercises the double-throw path of obsNext. -/
def badCbs : Cbs Unit Unit :=
  ⟨fun _ => (false, some ()), fun _ => (false, some ()), (false, none)⟩

/-- Callbacks on Unit that never throw and never stop the lifetime. -/
def goodCbs : Cbs Unit Unit :=
  ⟨fun _ => (false, none), fun _ => (false, none), (false, none)⟩

/-- Callbacks on Unit whose next callback throws while the error callback
returns normally. -/
def throwNextCbs : Cbs Unit Unit :=
  ⟨fun _ => (false, some ()), fun _ => (false, none), (false, none)⟩

/-! The take adaptor (rx.h 1960-1982).  take builds an observer on
ctx.lifetime that delegates to r = scrb.create(ctx); the subscribers of this
repository create their observer on ctx.lifetime as well, so the take
observer and its delegatee share one stopped flag.  The user lambda is
if (remaining.get()-- == 0) then r.complete() else r.next(v); the default
error and complete sinks of make_observer(delegatee, ...) are pass, so the
upstream complete is forwarded to r.complete() and the shared lifetime is
then stopped by detail::end. -/

/-- State of a bound take stage: the shared lifetime flag, the remaining
counter state (a C++ int, modelled as Int), and the downstream user events. -/
structure TakeSt (V E : Type) where
  stopped : Bool
  remaining : Int
  evs : List (Ev V E)
deriving Repr

/-- take observer receiving an upstream value (rx.h 1971-1978). -/
def takeSrcNext {V E : Type} (o : Cbs V E) (st : TakeSt V E) (v : V) : TakeSt V E :=
  if st.stopped then st
  else
    let rem := st.remaining
    if rem = 0 then
      let r := obsComplete o st.stopped
      ⟨r.1, rem - 1, st.evs ++ r.2.1⟩
    else
      let r := obsNext o st.stopped v
      ⟨r.1, rem - 1, st.evs ++ r.2.1⟩

/-- take observer receiving the upstream complete: detail::end guards on the
shared lifetime, forwards complete to the delegatee via detail::pass and then
stops the lifetime. -/
def takeSrcComplete {V E : Type} (o : Cbs V E) (st : TakeSt V E) : TakeSt V E :=
  if st.stopped then st
  else
    let r := obsComplete o st.stopped
    ⟨true, st.remaining, st.evs ++ r.2.1⟩

/-- A finite completing source driven through a bound take stage: the
source delivers its values in order and then complete. -/
def takeRun {V E : Type} (o : Cbs V E) (n : Int) (vals : List V) : TakeSt V E :=
  takeSrcComplete o (vals.foldl (takeSrcNext o) ⟨false, n, []⟩)

/-! The subscription (lifetime) of rx.h 157-316.  The shared store holds the
stopped flag, the stop-hook deque (stoppers) and the state-destructor deque
(destructors); both deques are filled with emplace_front, so the list head is
the most recent insertion and front-to-back traversal is reverse insertion
order.  Child lifetimes, the mutex and bind_defer are elided (single
threaded, default inline defer). -/

/-- Subscription store: stopped flag, stop hooks and state destructors,
newest first. -/
structure SubSt (H D : Type) where
  stopped : Bool
  stoppers : List H
  destructors : List D
deriving DecidableEq, Repr

/-- subscription::insert(function) (rx.h 239-248): when stopped the hook runs
immediately, otherwise it is pushed at the front of the stoppers deque.
Returns the new store and the hooks that ran during the call. -/
def subInsert {H D : Type} (s : SubSt H D) (h : H) : SubSt H D × List H :=
  if s.stopped then (s, [h])
  else ({ s with stoppers := h :: s.stoppers }, [])

/-- subscription::stop (rx.h 268-301): idempotent; sets stopped, then the
teardown drains the stoppers deque front to back (reverse insertion order).
The destructors deque is not touched by stop.  Returns the new store and the
hooks that ran, in order. -/
def subStop {H D : Type} (s : SubSt H D) : SubSt H D × List H :=
  if s.stopped then (s, [])
  else ({ s with stopped := true, stoppers := [] }, s.stoppers)

/-- subscription::make_state (rx.h 377-394): throws lifetime_error on a
stopped lifetime (none); otherwise the payload destructor is pushed at the
front of the destructors deque. -/
def subMakeState {H D : Type} (s : SubSt H D) (d : D) : Option (SubSt H D) :=
  if s.stopped then none
  else some { s with destructors := d :: s.destructors }

/-- subscription::shared::~shared (rx.h 164-172): when the last handle to the
store is released the destructors deque is drained front to back, whether or
not the lifetime was ever stopped.  Returns the destructors that run. -/
def subDestroy {H D : Type} (s : SubSt H D) : List D :=
  s.destructors

/-- One insert step over a store paired with the hooks already run. -/
def subInsertStep {H D : Type} (a : SubSt H D × List H) (h : H) : SubSt H D × List H :=
  let r := subInsert a.1 h
  (r.1, a.2 ++ r.2)

/-- Insert a list of hooks in order, collecting any immediately-run hooks. -/
def subInsertAll {H D : Type} (s : SubSt H D) (hs : List H) : SubSt H D × List H :=
  hs.foldl subInsertStep (s, [])

/-- A freshly constructed subscription store (rx.h 174-178). -/
def subFresh (H D : Type) : SubSt H D :=
  ⟨false, [], []⟩

/-! The observe_at queue and run_loop drain (rx.h 2215-2439).  Queue
elements are (when, ordinal, observer id): observe_at_queue::push pairs each
item with an incrementing ordinal.  The run loop dispatches, while not
stopped and the top is ready (top.when ≤ now()), the priority-least element:
compare_elem orders by when, ties by ordinal (FIFO).  Observers here do not
self-defer and the loop lifetime is not stopped. -/

/-- A queued (time, observer) pair with its FIFO ordinal. -/
structure QElem where
  when : Nat
  ord : Nat
  id : Nat
deriving DecidableEq, Repr

/-- observe_at_queue::compare_elem (rx.h 2252-2262): lhs sorts after rhs when
its time is later, ties broken by the larger ordinal. -/
def compareElem (lhs rhs : QElem) : Bool :=
  if lhs.when = rhs.when then decide (rhs.ord < lhs.ord)
  else decide (rhs.when < lhs.when)

/-- Dispatch order: earlier time first, equal times in ordinal (FIFO) order. -/
def elemLe (a b : QElem) : Prop :=
  a.when < b.when ∨ (a.when = b.when ∧ a.ord ≤ b.ord)

/-- observe_at_queue::top: the element no other element sorts before under
compare_elem. -/
def qTop : List QElem → Option QElem
  | [] => none
  | x :: xs =>
    match qTop xs with
    | none => some x
    | some m => if compareElem x m then some m else some x

/-- run_loop::step (rx.h 2391-2407): while the top is ready (when ≤ now),
pop it and call it.  Fuel bounds the iteration by the queue length.
Returns the dispatched elements in order and the remaining queue. -/
def stepDrain : Nat → Nat → List QElem → List QElem × List QElem
  | 0, _, q => ([], q)
  | fuel + 1, now, q =>
    match qTop q with
    | none => ([], q)
    | some m =>
      if m.when ≤ now then
        (m :: (stepDrain fuel now (q.erase m)).1, (stepDrain fuel now (q.erase m)).2)
      else ([], q)

/-- run_loop::run (rx.h 2409-2416): wait then step, once per clock reading.
Each dispatched element is tagged with the clock value at its dispatch. -/
def runDrain : List Nat → List QElem → List (Nat × QElem)
  | [], _ => []
  | now :: rest, q =>
    (stepDrain q.length now q).1.map (fun e => (now, e)) ++
      runDrain rest (stepDrain q.length now q).2

/-- observe_at_queue::push (rx.h 2286-2292) over a list of (time, id) pairs:
each push pairs the item with the incrementing ordinal counter. -/
def pushAllFrom (ord : Nat) : List (Nat × Nat) → List QElem
  | [] => []
  | (t, i) :: rest => ⟨t, ord, i⟩ :: pushAllFrom (ord + 1) rest

/-- Push a list of (time, id) pairs starting from ordinal 0. -/
def pushAll (items : List (Nat × Nat)) : List QElem :=
  pushAllFrom 0 items

/-! The pipe algebra fragments the claims mention (rx.h 2091-2139,
src/rx_pipe_operator.h).  A lifter wraps its lift function l, a lifted
observable wraps its bind function b. -/

/-- lifter (rx.h 1564-1578): lift(s) = l(s), where l must return a subscriber. -/
structure LifterM (S : Type) where
  l : S → S

/-- observable (rx.h 1507-1521): bind(s) = b(s), returning a starter. -/
structure ObservableM (S R : Type) where
  b : S → R

/-- The lambda of operator|(lifter, lifter) (rx.h 2101-2106 and
src/rx_pipe_operator.h 20-25): the body evaluates lhs.lift(rhs.lift(scbr))
but lacks a return statement, so the composed lift function returns void. -/
def lifterPipeLift {S : Type} (lhs rhs : LifterM S) : S → Unit := fun scbr =>
  let _ := lhs.l (rhs.l scbr)
  ()

/-- Modelled from the spec: the Lifter | Lifter row of the pipe operator
table composes the two lifts, (lhs | rhs).lift(s) = lhs.lift(rhs.lift(s)).
The return statement missing from the source lambda is supplied. -/
def lifterPipeSpec {S : Type} (lhs rhs : LifterM S) : LifterM S :=
  ⟨fun scbr => lhs.l (rhs.l scbr)⟩

/-- The fast-path observe_on for the immediate strand maker (rx.h 1854-1863):
make_lifter of the identity on subscribers. -/
def observeOnImmediate (S : Type) : LifterM S :=
  ⟨fun scbr => scbr⟩

/-- operator|(observable, lifter) (rx.h 2113-2118): bind through the lifted
subscriber. -/
def observablePipeLifter {S R : Type} (src : ObservableM S R) (lf : LifterM S) :
    ObservableM S R :=
  ⟨fun scrb => src.b (lf.l scrb)⟩

/-! The starter of ints (rx.h 1806-1816 and src/observables/rx_ints.h 9-19).
Subscriptions are identified by numeric ids; subscriber create returns
the observer handle carrying its callbacks and its lifetime id. -/

/-- A context, reduced to its lifetime id. -/
structure CtxM where
  lifetime : Nat
deriving DecidableEq, Repr

/-- An observer handle: its lifetime id and its user callbacks. -/
structure ObsHandle (E : Type) where
  lifetime : Nat
  cbs : Cbs Int E

/-- A subscriber: create(ctx) returns the observer. -/
structure ScrbM (E : Type) where
  create : CtxM → ObsHandle E

/-- The rx.h ints starter body (rx.h 1806-1816): r = scrb.create(ctx), run
the emission loop and complete, return r.lifetime. -/
def intsStartRx {E : Type} (first last : Int) (fuel : Nat) (scrb : ScrbM E)
    (ctx : CtxM) : ((Bool × List (Ev Int E)) × Bool) × Nat :=
  let r := scrb.create ctx
  (intsRun r.cbs first last fuel, r.lifetime)

/-- The src/observables/rx_ints.h ints starter body (lines 9-19): identical
emission, but the starter returns ctx.lifetime. -/
def intsStartHdr {E : Type} (first last : Int) (fuel : Nat) (scrb : ScrbM E)
    (ctx : CtxM) : ((Bool × List (Ev Int E)) × Bool) × Nat :=
  let r := scrb.create ctx
  (intsRun r.cbs first last fuel, ctx.lifetime)

/-- A subscriber that creates its observer on a fresh lifetime of its own,
as the lifted subscriber of observe_on does (rx.h 1825-1831). -/
def scrbFresh : ScrbM Unit :=
  ⟨fun _ => ⟨99, wbUnit⟩⟩

/-- A subscriber that creates its observer on the context lifetime, as the
terminal subscribers of the repository do. -/
def scrbCtx : ScrbM Unit :=
  ⟨fun ctx => ⟨ctx.lifetime, wbUnit⟩⟩

/-! Observer lemmas. -/

theorem obsNext_stopped {V E : Type} (o : Cbs V E) (v : V) :
    obsNext o true v = (true, [], Outcome.normal) := by
  simp [obsNext]

theorem obsError_stopped {V E : Type} (o : Cbs V E) (err : E) :
    obsError o true err = (true, [], Outcome.normal) := by
  simp [obsError]

theorem obsComplete_stopped {V E : Type} (o : Cbs V E) :
    obsComplete o true = (true, [], Outcome.normal) := by
  simp [obsComplete]

theorem obsStep_stopped {V E : Type} (o : Cbs V E) (sig : Sig V E) :
    obsStep o true sig = (true, [], Outcome.normal) := by
  cases sig <;>
    simp [obsStep, obsNext_stopped, obsError_stopped, obsComplete_stopped]

theorem obsRun_stopped {V E : Type} (o : Cbs V E) (sigs : List (Sig V E)) :
    obsRun o true sigs = (true, [], false) := by
  induction sigs with
  | nil => rfl
  | cons sig rest ih => simp [obsRun, obsStep_stopped, isAborted, ih]

theorem termCount_append {V E : Type} (a b : List (Ev V E)) :
    termCount (a ++ b) = termCount a + termCount b := by
  simp [termCount, List.filter_append]

theorem obsStep_inv {V E : Type} (o : Cbs V E) (he : ∀ ex, (o.e ex).2 = none)
    (sig : Sig V E) (s1 : Bool) (evs : List (Ev V E)) (out : Outcome E)
    (hstep : obsStep o false sig = (s1, evs, out)) :
    (termCount evs = 0 ∧ s1 = false ∧ isAborted out = false) ∨
    (termCount evs ≤ 1 ∧ (s1 = true ∨ isAborted out = true)) := by
  cases sig with
  | next v =>
    rcases hn : o.n v with ⟨sN, thrN⟩
    cases thrN with
    | none =>
      cases sN with
      | false =>
        left
        simp [obsStep, obsNext, hn] at hstep
        rcases hstep with ⟨h1, h2, h3⟩
        subst h1; subst h2; subst h3
        simp [termCount, isTerminal, isAborted]
      | true =>
        right
        simp [obsStep, obsNext, hn] at hstep
        rcases hstep with ⟨h1, h2, h3⟩
        subst h1; subst h2; subst h3
        simp [termCount, isTerminal, isAborted]
    | some ex =>
      cases sN with
      | true =>
        right
        simp [obsStep, obsNext, hn] at hstep
        rcases hstep with ⟨h1, h2, h3⟩
        subst h1; subst h2; subst h3
        simp [termCount, isTerminal, isAborted]
      | false =>
        right
        have hthr := he ex
        rcases hoe : o.e ex with ⟨sE, thrE⟩
        rw [hoe] at hthr
        simp only at hthr
        subst hthr
        simp [obsStep, obsNext, hn, hoe] at hstep
        rcases hstep with ⟨h1, h2, h3⟩
        subst h1; subst h2; subst h3
        simp [termCount, isTerminal, isAborted]
  | error err =>
    right
    have hthr := he err
    rcases hoe : o.e err with ⟨sE, thrE⟩
    rw [hoe] at hthr
    simp only at hthr
    subst hthr
    simp [obsStep, obsError, hoe] at hstep
    rcases hstep with ⟨h1, h2, h3⟩
    subst h1; subst h2; subst h3
    simp [termCount, isTerminal, isAborted]
  | complete =>
    right
    rcases hc : o.c with ⟨sC, thrC⟩
    cases thrC with
    | none =>
      simp [obsStep, obsComplete, hc] at hstep
      rcases hstep with ⟨h1, h2, h3⟩
      subst h1; subst h2; subst h3
      simp [termCount, isTerminal, isAborted]
    | some ex2 =>
      simp [obsStep, obsComplete, hc] at hstep
      rcases hstep with ⟨h1, h2, h3⟩
      subst h1; subst h2; subst h3
      simp [termCount, isTerminal, isAborted]

theorem obsRun_false_inv {V E : Type} (o : Cbs V E) (he : ∀ ex, (o.e ex).2 = none)
    (sigs : List (Sig V E)) :
    termCount (obsRun o false sigs).2.1 ≤ 1 ∧
    (1 ≤ termCount (obsRun o false sigs).2.1 →
      (obsRun o false sigs).1 = true ∨ (obsRun o false sigs).2.2 = true) := by
  induction sigs with
  | nil => simp [obsRun, termCount]
  | cons sig rest ih =>
    rcases hstep : obsStep o false sig with ⟨s1, evs, out⟩
    rcases obsStep_inv o he sig s1 evs out hstep with ⟨h0, hf, hna⟩ | ⟨h1, hta⟩
    · subst hf
      have hrun : obsRun o false (sig :: rest) =
          ((obsRun o false rest).1, evs ++ (obsRun o false rest).2.1,
            (obsRun o false rest).2.2) := by
        simp [obsRun, hstep, hna]
      simp only [hrun]
      constructor
      · rw [termCount_append, h0]
        simpa using ih.1
      · intro hge
        rw [termCount_append, h0] at hge
        simp only [Nat.zero_add] at hge
        exact ih.2 hge
    · by_cases hab : isAborted out = true
      · have hrun : obsRun o false (sig :: rest) = (s1, evs, true) := by
          simp [obsRun, hstep, hab]
        simp only [hrun]
        exact ⟨h1, fun _ => Or.inr trivial⟩
      · have hab2 : isAborted out = false := by
          revert hab; cases isAborted out <;> simp
        have ht : s1 = true := by
          rcases hta with ht2 | ha
          · exact ht2
          · exact absurd ha hab
        subst ht
        have hrun : obsRun o false (sig :: rest) = (true, evs, false) := by
          simp [obsRun, hstep, hab2, obsRun_stopped]
        simp only [hrun]
        exact ⟨h1, fun _ => Or.inl trivial⟩

/-- C1 amended: for every observer whose user error callback does not throw,
at most one terminal user callback (error or complete) runs over any sequence
of signals delivered from an unstopped start; when a terminal callback has
run, the lifetime is stopped or the process aborted; and once the lifetime is
stopped every next, error and complete call invokes no user callback at all. -/
theorem observer_terminal_discipline {V E : Type} (o : Cbs V E)
    (he : ∀ ex, (o.e ex).2 = none) (sigs : List (Sig V E)) :
    termCount (obsRun o false sigs).2.1 ≤ 1 ∧
    (1 ≤ termCount (obsRun o false sigs).2.1 →
      (obsRun o false sigs).1 = true ∨ (obsRun o false sigs).2.2 = true) ∧
    (∀ sigs2 : List (Sig V E), obsRun o true sigs2 = (true, [], false)) :=
  ⟨(obsRun_false_inv o he sigs).1, (obsRun_false_inv o he sigs).2,
   fun sigs2 => obsRun_stopped o sigs2⟩

/-- C1 counterexample: when the user next callback throws and the user error
callback also throws inside the catch handler of next, detail::end skips
lifetime.stop(), so the observer stays live and a later complete() delivers a
second terminal user callback: two terminal signals over one lifetime. -/
theorem observer_terminal_discipline_cex :
    termCount (obsRun badCbs false [Sig.next (), Sig.complete]).2.1 = 2 ∧
    (obsRun badCbs false [Sig.next (), Sig.complete]).2.2 = false := by
  decide

/-- C1 witness at a concrete well-behaved observer. -/
theorem observer_terminal_discipline_witness :
    termCount (obsRun goodCbs false [Sig.next (), Sig.complete]).2.1 ≤ 1 ∧
    ((obsRun goodCbs false [Sig.next (), Sig.complete]).1 = true ∨
      (obsRun goodCbs false [Sig.next (), Sig.complete]).2.2 = true) :=
  ⟨(observer_terminal_discipline goodCbs (fun _ => rfl) _).1,
   (observer_terminal_discipline goodCbs (fun _ => rfl) _).2.1 (by decide)⟩

/-- C7 amended: when the user next callback throws without having stopped the
lifetime, the exception is routed to the user error callback, and provided
that callback returns normally the lifetime is stopped (the normal terminal
path); a throw from the user error or complete callback during the error()
or complete() member call reaches detail::fail and aborts the program. -/
theorem next_throw_routes_to_error {V E : Type} (o : Cbs V E) (v : V) (ex : E)
    (hn : o.n v = (false, some ex)) (hee : (o.e ex).2 = none) :
    obsNext o false v = (true, [Ev.nextEv v, Ev.errorEv ex], Outcome.normal) ∧
    (∀ err ex2, (o.e err).2 = some ex2 →
      obsError o false err = ((o.e err).1, [Ev.errorEv err], Outcome.aborted)) ∧
    (∀ ex2, o.c.2 = some ex2 →
      obsComplete o false = (o.c.1, [Ev.completeEv], Outcome.aborted)) := by
  refine ⟨?_, ?_, ?_⟩
  · simp [obsNext, hn, hee]
  · intro err ex2 herr
    simp [obsError, herr]
  · intro ex2 hc
    simp [obsComplete, hc]

/-- C7 counterexample: with a throwing next callback and a throwing error
callback, next() routes to the error callback but the lifetime is not
stopped and the program does not abort; the exception escapes to the caller. -/
theorem next_throw_routes_to_error_cex :
    badCbs.n () = (false, some ()) ∧
    (obsNext badCbs false ()).1 = false ∧
    isAborted (obsNext badCbs false ()).2.2 = false := by
  decide

/-- C7 witness at a concrete observer whose next throws and whose error
callback returns normally. -/
theorem next_throw_routes_to_error_witness :
    obsNext throwNextCbs false () = (true, [Ev.nextEv (), Ev.errorEv ()], Outcome.normal) :=
  (next_throw_routes_to_error throwNextCbs () () rfl rfl).1

/-! ints producer lemmas. -/

theorem rangeFrom_length (i : Int) (n : Nat) : (rangeFrom i n).length = n := by
  induction n generalizing i with
  | zero => rfl
  | succ n ih => simp [rangeFrom, ih]

theorem mNext_wb {E : Type} (o : Cbs Int E) (hwb : wellBehaved o)
    (tr : List (Ev Int E)) (v : Int) :
    mNext o (false, tr) v = (false, tr ++ [Ev.nextEv v]) := by
  simp [mNext, obsNext, hwb.1 v]

theorem mComplete_wb {E : Type} (o : Cbs Int E) (hwb : wellBehaved o)
    (tr : List (Ev Int E)) :
    mComplete o (false, tr) = (true, tr ++ [Ev.completeEv]) := by
  simp [mComplete, obsComplete, hwb.2.2]

theorem mComplete_stopped {V E : Type} (o : Cbs V E) (tr : List (Ev V E)) :
    mComplete o (true, tr) = (true, tr) := by
  simp [mComplete, obsComplete]

theorem intsLoop_stopped {E : Type} (o : Cbs Int E) (last : Int) (fuel : Nat)
    (i : Int) (tr : List (Ev Int E)) :
    intsLoop o last (fuel + 1) i (true, tr) = ((true, tr), true) := by
  simp [intsLoop]

theorem intsLoop_wb {E : Type} (o : Cbs Int E) (hwb : wellBehaved o) (last : Int) :
    ∀ cnt fuel : Nat, cnt < fuel → ∀ i : Int, i + cnt = last → ∀ tr,
      intsLoop o last fuel i (false, tr) =
        ((false, tr ++ (rangeFrom i (cnt + 1)).map Ev.nextEv), true) := by
  intro cnt
  induction cnt with
  | zero =>
    intro fuel hf i hi tr
    have hi2 : i = last := by omega
    obtain ⟨f, rfl⟩ : ∃ f, fuel = f + 1 := ⟨fuel - 1, by omega⟩
    subst hi2
    simp [intsLoop, mNext_wb o hwb, rangeFrom]
  | succ cnt ih =>
    intro fuel hf i hi tr
    obtain ⟨f, rfl⟩ : ∃ f, fuel = f + 1 := ⟨fuel - 1, by omega⟩
    have hne : i ≠ last := by omega
    have hrec := ih f (by omega) (i + 1) (by omega) (tr ++ [Ev.nextEv i])
    simp [intsLoop, mNext_wb o hwb, hne, hrec, rangeFrom]

theorem intsLoop_stopAt {E : Type} (k last : Int) (hk : k ≤ last) :
    ∀ cnt fuel : Nat, cnt + 2 ≤ fuel → ∀ i : Int, i + cnt = k → ∀ tr,
      intsLoop (stopAtCbs (E := E) k) last fuel i (false, tr) =
        ((true, tr ++ (rangeFrom i (cnt + 1)).map Ev.nextEv), true) := by
  intro cnt
  induction cnt with
  | zero =>
    intro fuel hf i hi tr
    have hi2 : i = k := by omega
    subst hi2
    obtain ⟨f, rfl⟩ : ∃ f, fuel = f + 1 := ⟨fuel - 1, by omega⟩
    have hstep : mNext (stopAtCbs (E := E) i) (false, tr) i = (true, tr ++ [Ev.nextEv i]) := by
      simp [mNext, obsNext, stopAtCbs]
    by_cases hkl : i = last
    · subst hkl
      simp [intsLoop, hstep, rangeFrom]
    · obtain ⟨f2, rfl⟩ : ∃ f2, f = f2 + 1 := ⟨f - 1, by omega⟩
      simp [intsLoop, hstep, hkl, rangeFrom, intsLoop_stopped]
  | succ cnt ih =>
    intro fuel hf i hi tr
    obtain ⟨f, rfl⟩ : ∃ f, fuel = f + 1 := ⟨fuel - 1, by omega⟩
    have hik : i ≠ k := by omega
    have hil : i ≠ last := by omega
    have hstep : mNext (stopAtCbs (E := E) k) (false, tr) i = (false, tr ++ [Ev.nextEv i]) := by
      simp [mNext, obsNext, stopAtCbs, hik]
    have hrec := ih f (by omega) (i + 1) (by omega) (tr ++ [Ev.nextEv i])
    simp [intsLoop, hstep, hil, hrec, rangeFrom]

/-- C2 amended: for first ≤ last and a well-behaved never-stopped subscriber,
ints(first, last) delivers next(first), ..., next(last) in order followed by
exactly one complete, hence exactly (last - first + 1) next values; once the
observer lifetime is stopped the loop emits nothing further; and when the
user next callback stops the lifetime at value k, emission halts with k (no
later value is delivered, and the final complete is a no-op).  For
first > last the loop of rx.h never terminates on its own (see the
counterexample). -/
theorem ints_from_range {E : Type} (o : Cbs Int E) (hwb : wellBehaved o)
    (first last k : Int) (h1 : first ≤ last) (fuel : Nat)
    (hfuel : (last - first).toNat + 1 ≤ fuel) :
    intsRun o first last fuel =
      ((true, (intRange first last).map Ev.nextEv ++ [Ev.completeEv]), true) ∧
    ((intRange first last).map (Ev.nextEv (E := E))).length = (last - first).toNat + 1 ∧
    (∀ fuel2 i tr, intsLoop o last (fuel2 + 1) i (true, tr) = ((true, tr), true)) ∧
    (∀ fuel4, (last - first).toNat + 2 ≤ fuel4 → first ≤ k → k ≤ last →
      intsRun (stopAtCbs (E := E) k) first last fuel4 =
        ((true, (intRange first k).map Ev.nextEv), true)) := by
  refine ⟨?_, ?_, ?_, ?_⟩
  · have hloop := intsLoop_wb o hwb last ((last - first).toNat) fuel (by omega) first
      (by omega) []
    simp [intsRun, hloop, intRange, mComplete_wb o hwb]
  · simp [intRange, rangeFrom_length]
  · intro fuel2 i tr
    exact intsLoop_stopped o last fuel2 i tr
  · intro fuel4 hf4 hk1 hk2
    have hloop := intsLoop_stopAt (E := E) k last hk2 ((k - first).toNat) fuel4 (by omega)
      first (by omega) []
    simp [intsRun, hloop, intRange, mComplete_stopped]

/-- C2 counterexample: for first > last the loop condition i == last is never
met, so ints(0, -1) keeps emitting: within 5 iterations it has delivered five
next values and no complete, although first..last is the empty range. -/
theorem ints_from_range_cex :
    intsRun wbUnit 0 (-1) 5 =
      ((false, [Ev.nextEv 0, Ev.nextEv 1, Ev.nextEv 2, Ev.nextEv 3, Ev.nextEv 4]), false) := by
  decide

/-- C2 witness at ints(1, 3) and at ints(1, 3) cancelled at value 2. -/
theorem ints_from_range_witness :
    intsRun wbUnit 1 3 4 =
      ((true, (intRange 1 3).map Ev.nextEv ++ [Ev.completeEv]), true) ∧
    intsRun (stopAtCbs (E := Unit) 2) 1 3 6 =
      ((true, (intRange 1 2).map Ev.nextEv), true) :=
  ⟨(ints_from_range wbUnit ⟨fun _ => rfl, fun _ => rfl, rfl⟩ 1 3 2 (by decide) 4
      (by decide)).1,
   (ints_from_range wbUnit ⟨fun _ => rfl, fun _ => rfl, rfl⟩ 1 3 2 (by decide) 4
      (by decide)).2.2.2 6 (by decide) (by decide) (by decide)⟩

/-! take adaptor lemmas. -/

theorem takeSrcNext_stopped {V E : Type} (o : Cbs V E) (st : TakeSt V E) (v : V)
    (h : st.stopped = true) : takeSrcNext o st v = st := by
  simp [takeSrcNext, h]

theorem takeFold_stopped {V E : Type} (o : Cbs V E) (vals : List V) :
    ∀ st : TakeSt V E, st.stopped = true → vals.foldl (takeSrcNext o) st = st := by
  induction vals with
  | nil => intro st _; rfl
  | cons v rest ih =>
    intro st h
    rw [List.foldl_cons, takeSrcNext_stopped o st v h]
    exact ih st h

theorem takeFold_small {V E : Type} (o : Cbs V E) (hwb : wellBehaved o) :
    ∀ (vals : List V) (n : Int), 0 ≤ n → (vals.length : Int) ≤ n → ∀ acc,
      vals.foldl (takeSrcNext o) ⟨false, n, acc⟩ =
        ⟨false, n - vals.length, acc ++ vals.map Ev.nextEv⟩ := by
  intro vals
  induction vals with
  | nil => intro n hn hlen acc; simp
  | cons v rest ih =>
    intro n hn hlen acc
    simp only [List.length_cons] at hlen
    push_cast at hlen
    have hn0 : n ≠ 0 := by omega
    have hstep : takeSrcNext o ⟨false, n, acc⟩ v = ⟨false, n - 1, acc ++ [Ev.nextEv v]⟩ := by
      simp [takeSrcNext, hn0, obsNext, hwb.1 v]
    have hrec := ih (n - 1) (by omega) (by omega) (acc ++ [Ev.nextEv v])
    rw [List.foldl_cons, hstep, hrec]
    have harith : n - 1 - (rest.length : Int) = n - ((v :: rest).length : Int) := by
      push_cast [List.length_cons]
      omega
    simp [harith]

theorem takeFold_big {V E : Type} (o : Cbs V E) (hwb : wellBehaved o) :
    ∀ (vals : List V) (n : Int), 0 ≤ n → n < (vals.length : Int) → ∀ acc,
      vals.foldl (takeSrcNext o) ⟨false, n, acc⟩ =
        ⟨true, -1, acc ++ (vals.take n.toNat).map Ev.nextEv ++ [Ev.completeEv]⟩ := by
  intro vals
  induction vals with
  | nil =>
    intro n hn hlen acc
    simp at hlen
    omega
  | cons v rest ih =>
    intro n hn hlen acc
    by_cases hn0 : n = 0
    · subst hn0
      have hstep : takeSrcNext o ⟨(false : Bool), (0 : Int), acc⟩ v =
          ⟨true, -1, acc ++ [Ev.completeEv]⟩ := by
        simp [takeSrcNext, obsComplete, hwb.2.2]
      rw [List.foldl_cons, hstep, takeFold_stopped o rest _ rfl]
      simp
    · have hstep : takeSrcNext o ⟨false, n, acc⟩ v = ⟨false, n - 1, acc ++ [Ev.nextEv v]⟩ := by
        simp [takeSrcNext, hn0, obsNext, hwb.1 v]
      have hrec := ih (n - 1) (by omega)
        (by simp only [List.length_cons] at hlen; push_cast at hlen ⊢; omega)
        (acc ++ [Ev.nextEv v])
      rw [List.foldl_cons, hstep, hrec]
      have htake : (v :: rest).take n.toNat = v :: rest.take (n - 1).toNat := by
        have h1 : n.toNat = (n - 1).toNat + 1 := by omega
        rw [h1]
        rfl
      rw [htake]
      simp

theorem filter_isTerminal_map_next {V E : Type} (xs : List V) :
    (xs.map (Ev.nextEv (E := E))).filter isTerminal = [] := by
  induction xs with
  | nil => rfl
  | cons x rest ih => simp [isTerminal, ih]

theorem filter_not_isTerminal_map_next {V E : Type} (xs : List V) :
    (xs.map (Ev.nextEv (E := E))).filter (fun e => !isTerminal e) = xs.map Ev.nextEv := by
  induction xs with
  | nil => rfl
  | cons x rest ih => simp [isTerminal, ih]

/-- C3: for every non-negative n, every well-behaved subscriber and every
finite completing source, source | take(n) | subscriber delivers downstream
exactly the first n source values (all of them when the source has fewer)
followed by exactly one complete: the downstream trace is
map next (take n values) ++ [complete], the terminal count is one, and the
number of next deliveries is min n (length of the source). -/
theorem take_first_n {V E : Type} (o : Cbs V E) (hwb : wellBehaved o)
    (n : Int) (hn : 0 ≤ n) (vals : List V) :
    (takeRun o n vals).evs = (vals.take n.toNat).map Ev.nextEv ++ [Ev.completeEv] ∧
    termCount (takeRun o n vals).evs = 1 ∧
    ((takeRun o n vals).evs.filter (fun e => !isTerminal e)).length =
      min n.toNat vals.length := by
  have hmain : (takeRun o n vals).evs =
      (vals.take n.toNat).map Ev.nextEv ++ [Ev.completeEv] := by
    by_cases hle : (vals.length : Int) ≤ n
    · have hfold := takeFold_small o hwb vals n hn hle []
      have htake : vals.take n.toNat = vals := List.take_of_length_le (by omega)
      simp [takeRun, hfold, takeSrcComplete, obsComplete, hwb.2.2, htake]
    · have hfold := takeFold_big o hwb vals n hn (by omega) []
      simp [takeRun, hfold, takeSrcComplete]
  refine ⟨hmain, ?_, ?_⟩
  · rw [hmain, termCount_append]
    have h0 : termCount ((vals.take n.toNat).map (Ev.nextEv (E := E))) = 0 := by
      simp only [termCount]
      rw [filter_isTerminal_map_next]
      rfl
    rw [h0]
    simp [termCount, isTerminal]
  · rw [hmain, List.filter_append, filter_not_isTerminal_map_next]
    simp [isTerminal, List.length_take]

/-- C3 witness at take(3) over a five-value source. -/
theorem take_first_n_witness :
    (takeRun wbUnit 3 [10, 20, 30, 40, 50]).evs =
      (([10, 20, 30, 40, 50] : List Int).take ((3 : Int)).toNat).map Ev.nextEv ++
        [Ev.completeEv] :=
  (take_first_n wbUnit ⟨fun _ => rfl, fun _ => rfl, rfl⟩ 3 (by decide)
    [10, 20, 30, 40, 50]).1

/-! subscription lemmas. -/

theorem subFold_live {H D : Type} (hs : List H) :
    ∀ (st : List H) (dt : List D) (acc : List H),
      hs.foldl subInsertStep (⟨false, st, dt⟩, acc) =
        (⟨false, hs.reverse ++ st, dt⟩, acc) := by
  induction hs with
  | nil => intro st dt acc; simp
  | cons h rest ih =>
    intro st dt acc
    rw [List.foldl_cons]
    have hstep : subInsertStep ((⟨false, st, dt⟩ : SubSt H D), acc) h =
        (⟨false, h :: st, dt⟩, acc) := by
      simp [subInsertStep, subInsert]
    rw [hstep, ih]
    simp

/-- C5: for every lifetime, hooks inserted while it is live run nothing at
insert time; stop() runs exactly the inserted hooks, in reverse insertion
order, and leaves the stopped flag true; a hook inserted after stop runs
immediately inside insert; and a second stop is a no-op. -/
theorem lifetime_stop_hooks {H D : Type} (hs : List H) (h2 : H) :
    (subInsertAll (subFresh H D) hs).2 = [] ∧
    (subStop (subInsertAll (subFresh H D) hs).1).2 = hs.reverse ∧
    (subStop (subInsertAll (subFresh H D) hs).1).1.stopped = true ∧
    subInsert (subStop (subInsertAll (subFresh H D) hs).1).1 h2 =
      ((subStop (subInsertAll (subFresh H D) hs).1).1, [h2]) ∧
    subStop (subStop (subInsertAll (subFresh H D) hs).1).1 =
      ((subStop (subInsertAll (subFresh H D) hs).1).1, []) := by
  have hall : subInsertAll (subFresh H D) hs = (⟨false, hs.reverse, []⟩, []) := by
    have hfld := subFold_live (D := D) hs [] [] []
    simpa [subInsertAll, subFresh] using hfld
  rw [hall]
  simp [subStop, subInsert]

/-- C10: stop() drains the stop hooks but leaves the destructor list intact
and runs none of the destructors; the destructors registered by make_state
run (exactly once, newest first) only when the shared store is released,
whether or not the lifetime was stopped first; and make_state on a stopped
lifetime fails with lifetime_error. -/
theorem state_destroyed_at_release {H D : Type} (s : SubSt H D) (d : D)
    (hlive : s.stopped = false) :
    (subStop s).1.destructors = s.destructors ∧
    (subStop s).2 = s.stoppers ∧
    (∀ s2, subMakeState s d = some s2 →
      s2.destructors = d :: s.destructors ∧
      subDestroy (subStop s2).1 = d :: s.destructors ∧
      subDestroy s2 = d :: s.destructors) ∧
    (∀ sStopped : SubSt H D, sStopped.stopped = true → subMakeState sStopped d = none) := by
  refine ⟨?_, ?_, ?_, ?_⟩
  · simp [subStop, hlive]
  · simp [subStop, hlive]
  · intro s2 hmk
    simp [subMakeState, hlive] at hmk
    subst hmk
    simp [subDestroy, subStop, hlive]
  · intro sS hS
    simp [subMakeState, hS]

/-- C10 witness: a live lifetime with one registered destructor keeps it
through stop and runs it at release. -/
theorem state_destroyed_at_release_witness :
    subDestroy (subStop (⟨false, [1, 2], [7, 5]⟩ : SubSt Nat Nat)).1 = [7, 5] :=
  ((state_destroyed_at_release (⟨false, [1, 2], [5]⟩ : SubSt Nat Nat) 7 rfl).2.2.1
    ⟨false, [1, 2], [7, 5]⟩ (by decide)).2.1

/-- C4 (code bug): the lambda of operator|(lifter, lifter) evaluates
lhs.lift(rhs.lift(scbr)) and discards it, returning void, so the composition
yields no subscriber (lifter::lift rejects the void-returning lift function
through its static_assert); the spec-modelled composition applied to the same
input returns the composed subscriber lhs.lift(rhs.lift(s)). -/
theorem lifter_pipe_returns_void :
    lifterPipeLift (⟨fun k => k + 1⟩ : LifterM Nat) ⟨fun k => k * 2⟩ 3 = () ∧
    (lifterPipeSpec (⟨fun k => k + 1⟩ : LifterM Nat) ⟨fun k => k * 2⟩).l 3 = 7 :=
  ⟨rfl, rfl⟩

/-- C9: with the immediate strand maker observe_on lifts every subscriber to
itself, and binding any source through the resulting lifter yields exactly
the starter of the source on that subscriber, hence the identical signals. -/
theorem observe_on_immediate_noop {S R : Type} (src : ObservableM S R) (s : S) :
    (observeOnImmediate S).l s = s ∧
    (observablePipeLifter src (observeOnImmediate S)).b s = src.b s :=
  ⟨rfl, rfl⟩

/-- C8 amended: start(ctx) builds the chain via subscriber.create(ctx) and
runs the producer over the created observer; the rx.h ints starter returns
the created observer lifetime r.lifetime, which is ctx.lifetime exactly when
the subscriber creates its observer on the context lifetime; the
src/observables/rx_ints.h variant returns ctx.lifetime itself. -/
theorem starter_returns_observer_lifetime {E : Type} (first last : Int) (fuel : Nat)
    (scrb : ScrbM E) (ctx : CtxM)
    (hsub : (scrb.create ctx).lifetime = ctx.lifetime) :
    (intsStartRx first last fuel scrb ctx).2 = (scrb.create ctx).lifetime ∧
    (intsStartRx first last fuel scrb ctx).2 = ctx.lifetime ∧
    (intsStartRx first last fuel scrb ctx).1 =
      intsRun (scrb.create ctx).cbs first last fuel ∧
    (intsStartHdr first last fuel scrb ctx).2 = ctx.lifetime :=
  ⟨rfl, by simp [intsStartRx, hsub], rfl, rfl⟩

/-- C8 counterexample: binding ints to a subscriber that creates its observer
on a fresh lifetime (as the lifted subscriber of observe_on does) returns
that observer lifetime, not the lifetime of the context the starter was
started with. -/
theorem starter_returns_observer_lifetime_cex :
    (intsStartRx 1 3 10 scrbFresh ⟨1⟩).2 = 99 ∧ (⟨1⟩ : CtxM).lifetime ≠ 99 :=
  ⟨rfl, by decide⟩

/-- C8 witness at a subscriber that uses the context lifetime. -/
theorem starter_returns_observer_lifetime_witness :
    (intsStartRx 1 3 10 scrbCtx ⟨4⟩).2 = (⟨4⟩ : CtxM).lifetime :=
  (starter_returns_observer_lifetime 1 3 10 scrbCtx ⟨4⟩ rfl).2.1

/-! run_loop queue lemmas. -/

theorem elemLe_refl (a : QElem) : elemLe a a := by
  unfold elemLe
  omega

theorem elemLe_trans {a b c : QElem} (h1 : elemLe a b) (h2 : elemLe b c) :
    elemLe a c := by
  unfold elemLe at *
  omega

theorem compareElem_true {a b : QElem} (h : compareElem a b = true) : elemLe b a := by
  unfold compareElem at h
  by_cases hw : a.when = b.when
  · simp [hw] at h
    unfold elemLe
    omega
  · simp [hw] at h
    unfold elemLe
    omega

theorem compareElem_false {a b : QElem} (h : compareElem a b = false) : elemLe a b := by
  unfold compareElem at h
  by_cases hw : a.when = b.when
  · simp [hw] at h
    unfold elemLe
    omega
  · simp [hw] at h
    unfold elemLe
    omega

theorem qTop_cons_none {xs : List QElem} (x : QElem) (hx : qTop xs = none) :
    qTop (x :: xs) = some x := by
  unfold qTop
  rw [hx]

theorem qTop_cons_some {xs : List QElem} {m : QElem} (x : QElem)
    (hx : qTop xs = some m) :
    qTop (x :: xs) = if compareElem x m then some m else some x := by
  unfold qTop
  rw [hx]

theorem stepDrain_succ_none {fuel now : Nat} {q : List QElem}
    (hq : qTop q = none) : stepDrain (fuel + 1) now q = ([], q) := by
  unfold stepDrain
  rw [hq]

theorem stepDrain_succ_some {fuel now : Nat} {q : List QElem} {m : QElem}
    (hq : qTop q = some m) :
    stepDrain (fuel + 1) now q =
      if m.when ≤ now then
        (m :: (stepDrain fuel now (q.erase m)).1, (stepDrain fuel now (q.erase m)).2)
      else ([], q) := by
  simp only [stepDrain]
  rw [hq]

theorem qTop_none {q : List QElem} (h : qTop q = none) : q = [] := by
  cases q with
  | nil => rfl
  | cons x xs =>
    exfalso
    cases hx : qTop xs with
    | none => rw [qTop_cons_none x hx] at h; simp at h
    | some m =>
      rw [qTop_cons_some x hx] at h
      cases hc : compareElem x m <;> simp [hc] at h

theorem qTop_mem : ∀ {q : List QElem} {m : QElem}, qTop q = some m → m ∈ q := by
  intro q
  induction q with
  | nil => intro m h; simp [qTop] at h
  | cons x xs ih =>
    intro m h
    cases hx : qTop xs with
    | none =>
      rw [qTop_cons_none x hx] at h
      simp at h
      subst h
      exact List.mem_cons_self x xs
    | some m2 =>
      rw [qTop_cons_some x hx] at h
      cases hc : compareElem x m2 with
      | true =>
        rw [hc] at h
        simp at h
        subst h
        exact List.mem_cons_of_mem x (ih hx)
      | false =>
        rw [hc] at h
        simp at h
        subst h
        exact List.mem_cons_self x xs

theorem qTop_min : ∀ {q : List QElem} {m : QElem}, qTop q = some m →
    ∀ x ∈ q, elemLe m x := by
  intro q
  induction q with
  | nil => intro m h; simp [qTop] at h
  | cons a xs ih =>
    intro m h x hx
    cases ht : qTop xs with
    | none =>
      rw [qTop_cons_none a ht] at h
      simp at h
      subst h
      have hnil := qTop_none ht
      subst hnil
      rcases List.mem_cons.mp hx with rfl | hx2
      · exact elemLe_refl _
      · simp at hx2
    | some m2 =>
      rw [qTop_cons_some a ht] at h
      cases hc : compareElem a m2 with
      | true =>
        rw [hc] at h
        simp at h
        subst h
        rcases List.mem_cons.mp hx with rfl | hx2
        · exact compareElem_true hc
        · exact ih ht x hx2
      | false =>
        rw [hc] at h
        simp at h
        subst h
        rcases List.mem_cons.mp hx with rfl | hx2
        · exact elemLe_refl _
        · exact elemLe_trans (compareElem_false hc) (ih ht x hx2)

theorem stepDrain_dispatch_mem :
    ∀ (fuel now : Nat) (q : List QElem) (x : QElem),
      x ∈ (stepDrain fuel now q).1 → x ∈ q := by
  intro fuel
  induction fuel with
  | zero => intro now q x hx; simp [stepDrain] at hx
  | succ fuel ih =>
    intro now q x hx
    cases hq : qTop q with
    | none => rw [stepDrain_succ_none hq] at hx; simp at hx
    | some m =>
      rw [stepDrain_succ_some hq] at hx
      by_cases hm : m.when ≤ now
      · rw [if_pos hm] at hx
        rcases List.mem_cons.mp hx with rfl | hx2
        · exact qTop_mem hq
        · exact List.mem_of_mem_erase (ih now (q.erase m) x hx2)
      · rw [if_neg hm] at hx
        simp at hx

theorem stepDrain_when :
    ∀ (fuel now : Nat) (q : List QElem) (x : QElem),
      x ∈ (stepDrain fuel now q).1 → x.when ≤ now := by
  intro fuel
  induction fuel with
  | zero => intro now q x hx; simp [stepDrain] at hx
  | succ fuel ih =>
    intro now q x hx
    cases hq : qTop q with
    | none => rw [stepDrain_succ_none hq] at hx; simp at hx
    | some m =>
      rw [stepDrain_succ_some hq] at hx
      by_cases hm : m.when ≤ now
      · rw [if_pos hm] at hx
        rcases List.mem_cons.mp hx with rfl | hx2
        · exact hm
        · exact ih now (q.erase m) x hx2
      · rw [if_neg hm] at hx
        simp at hx

theorem stepDrain_rem_mem :
    ∀ (fuel now : Nat) (q : List QElem) (x : QElem),
      x ∈ (stepDrain fuel now q).2 → x ∈ q := by
  intro fuel
  induction fuel with
  | zero => intro now q x hx; exact hx
  | succ fuel ih =>
    intro now q x hx
    cases hq : qTop q with
    | none => rw [stepDrain_succ_none hq] at hx; exact hx
    | some m =>
      rw [stepDrain_succ_some hq] at hx
      by_cases hm : m.when ≤ now
      · rw [if_pos hm] at hx
        exact List.mem_of_mem_erase (ih now (q.erase m) x hx)
      · rw [if_neg hm] at hx
        exact hx

theorem stepDrain_rem_late :
    ∀ (fuel now : Nat) (q : List QElem), q.length ≤ fuel →
      ∀ x ∈ (stepDrain fuel now q).2, now < x.when := by
  intro fuel
  induction fuel with
  | zero =>
    intro now q hlen x hx
    have hq : q = [] := List.eq_nil_of_length_eq_zero (by omega)
    subst hq
    simp [stepDrain] at hx
  | succ fuel ih =>
    intro now q hlen x hx
    cases hq : qTop q with
    | none =>
      rw [stepDrain_succ_none hq] at hx
      rw [qTop_none hq] at hx
      simp at hx
    | some m =>
      rw [stepDrain_succ_some hq] at hx
      by_cases hm : m.when ≤ now
      · rw [if_pos hm] at hx
        have hlen2 : (q.erase m).length ≤ fuel := by
          rw [List.length_erase_of_mem (qTop_mem hq)]
          omega
        exact ih now (q.erase m) hlen2 x hx
      · rw [if_neg hm] at hx
        have hmin := qTop_min hq x hx
        unfold elemLe at hmin
        omega

theorem stepDrain_sorted :
    ∀ (fuel now : Nat) (q : List QElem),
      List.Pairwise elemLe (stepDrain fuel now q).1 := by
  intro fuel
  induction fuel with
  | zero => intro now q; simp [stepDrain]
  | succ fuel ih =>
    intro now q
    cases hq : qTop q with
    | none => rw [stepDrain_succ_none hq]; simp
    | some m =>
      rw [stepDrain_succ_some hq]
      by_cases hm : m.when ≤ now
      · rw [if_pos hm]
        rw [List.pairwise_cons]
        refine ⟨?_, ih now (q.erase m)⟩
        intro x hx
        exact qTop_min hq x
          (List.mem_of_mem_erase (stepDrain_dispatch_mem fuel now (q.erase m) x hx))
      · rw [if_neg hm]
        simp

theorem runDrain_when :
    ∀ (clocks : List Nat) (q : List QElem), ∀ p ∈ runDrain clocks q,
      p.2.when ≤ p.1 := by
  intro clocks
  induction clocks with
  | nil => intro q p hp; simp [runDrain] at hp
  | cons now rest ih =>
    intro q p hp
    unfold runDrain at hp
    rcases List.mem_append.mp hp with hp1 | hp2
    · rcases List.mem_map.mp hp1 with ⟨e, he, rfl⟩
      exact stepDrain_when q.length now q e he
    · exact ih _ p hp2

theorem runDrain_mem :
    ∀ (clocks : List Nat) (q : List QElem), ∀ p ∈ runDrain clocks q, p.2 ∈ q := by
  intro clocks
  induction clocks with
  | nil => intro q p hp; simp [runDrain] at hp
  | cons now rest ih =>
    intro q p hp
    unfold runDrain at hp
    rcases List.mem_append.mp hp with hp1 | hp2
    · rcases List.mem_map.mp hp1 with ⟨e, he, rfl⟩
      exact stepDrain_dispatch_mem q.length now q e he
    · exact stepDrain_rem_mem q.length now q p.2 (ih _ p hp2)

theorem runDrain_sorted :
    ∀ (clocks : List Nat) (q : List QElem),
      List.Pairwise elemLe ((runDrain clocks q).map Prod.snd) := by
  intro clocks
  induction clocks with
  | nil => intro q; simp [runDrain]
  | cons now rest ih =>
    intro q
    unfold runDrain
    rw [List.map_append, List.pairwise_append]
    refine ⟨?_, ih _, ?_⟩
    · rw [List.map_map]
      have hmap : (Prod.snd ∘ fun e => ((now, e) : Nat × QElem)) = id := rfl
      rw [hmap, List.map_id]
      exact stepDrain_sorted q.length now q
    · intro a ha b hb
      rw [List.map_map] at ha
      have hmap : (Prod.snd ∘ fun e => ((now, e) : Nat × QElem)) = id := rfl
      rw [hmap, List.map_id] at ha
      have ha2 : a.when ≤ now := stepDrain_when q.length now q a ha
      rcases List.mem_map.mp hb with ⟨p, hp, rfl⟩
      have hb2 : p.2 ∈ (stepDrain q.length now q).2 := runDrain_mem rest _ p hp
      have hb3 : now < p.2.when :=
        stepDrain_rem_late q.length now q (le_refl _) p.2 hb2
      unfold elemLe
      omega

theorem pushAllFrom_ords (items : List (Nat × Nat)) :
    ∀ o : Nat, (pushAllFrom o items).map QElem.ord = List.range' o items.length := by
  induction items with
  | nil => intro o; rfl
  | cons it rest ih =>
    intro o
    rcases it with ⟨t, i⟩
    simp [pushAllFrom, ih (o + 1), List.range'_succ]

/-- C6: over any schedule of (time, id) pairs pushed in FIFO order and any
sequence of clock readings, the run loop dispatches an element only once the
clock has reached its time, and the full dispatch sequence is ordered by
time with equal times in ordinal order, the ordinals being the insertion
indices 0, 1, 2, ... assigned by push. -/
theorem run_loop_dispatch (items : List (Nat × Nat)) (clocks : List Nat) :
    (∀ p ∈ runDrain clocks (pushAll items), p.2.when ≤ p.1) ∧
    List.Pairwise elemLe ((runDrain clocks (pushAll items)).map Prod.snd) ∧
    (pushAll items).map QElem.ord = List.range items.length := by
  refine ⟨fun p hp => runDrain_when clocks (pushAll items) p hp,
    runDrain_sorted clocks (pushAll items), ?_⟩
  rw [List.range_eq_range']
  exact pushAllFrom_ords items 0

/-- C6 witness: with elements at times 5 and 3 pushed in that order and one
clock reading 10, the time-3 element is dispatched, no earlier than its due
time. -/
theorem run_loop_dispatch_witness :
    ((10, (⟨3, 1, 11⟩ : QElem)) ∈ runDrain [10] (pushAll [(5, 10), (3, 11)])) ∧
    ((⟨3, 1, 11⟩ : QElem).when ≤ 10) :=
  ⟨by decide,
   (run_loop_dispatch [(5, 10), (3, 11)] [10]).1 (10, ⟨3, 1, 11⟩) (by decide)⟩

end Rx
